import Mathlib

/-!
Shallow embedding of the skill-document converter in
`src/gemini-skills-adapter/convert_skills_optimized.py` (class
`OptimizedBilingualConverter`), together with the pieces of
`convert_skills.py` and `convert_skills_bilingual.py` that the claims cite.

Strings are modelled as `List Char` (Python `str` is a sequence of code
points).  A document body is split into lines on `'\n'` exactly as Python's
`str.split('\n')` does.

Python's `str.strip()` and the regex class `\s` strip/match Unicode
whitespace; every input the rules inspect is compared against ASCII tables,
so whitespace is modelled as the six ASCII whitespace characters.
-/

/-- Code points of a string literal (Python `str` as a character list). -/
def chars (s : String) : List Char := s.data

/-- ASCII whitespace, the model of Python's `str.strip()` / regex `\s`. -/
def isPySpace (c : Char) : Bool :=
  c == ' ' || c == '\t' || c == '\n' || c == '\r' || c == '\x0b' || c == '\x0c'

/-- Python `str.strip()`: remove leading and trailing whitespace. -/
def pyStrip (l : List Char) : List Char :=
  ((l.dropWhile isPySpace).reverse.dropWhile isPySpace).reverse

/-- Python's substring test `needle in hay`. -/
def isSubList (needle : List Char) : List Char → Bool
  | [] => needle.isEmpty
  | c :: rest => needle.isPrefixOf (c :: rest) || isSubList needle rest

/-- `OptimizedBilingualConverter.SKILL_NAMES` (dict in source order). -/
def SKILL_NAMES : List (List Char × List Char) :=
  [(chars "brainstorming", chars "头脑风暴"),
   (chars "writing-plans", chars "编写计划"),
   (chars "systematic-debugging", chars "系统化调试"),
   (chars "test-driven-development", chars "测试驱动开发"),
   (chars "using-git-worktrees", chars "使用 Git 工作树"),
   (chars "subagent-driven-development", chars "子代理驱动开发"),
   (chars "executing-plans", chars "执行计划"),
   (chars "verification-before-completion", chars "完成前验证"),
   (chars "requesting-code-review", chars "请求代码审查"),
   (chars "receiving-code-review", chars "接收代码审查"),
   (chars "finishing-a-development-branch", chars "完成开发分支"),
   (chars "dispatching-parallel-agents", chars "分发并行任务"),
   (chars "writing-skills", chars "编写技能"),
   (chars "using-superpowers", chars "使用 Superpowers")]

/-- `OptimizedBilingualConverter.TITLE_TRANSLATIONS` (dict in source order). -/
def TITLE_TRANSLATIONS : List (List Char × List Char) :=
  [(chars "Overview", chars "概述"),
   (chars "Core principle", chars "核心原则"),
   (chars "When to Use", chars "使用时机"),
   (chars "The Process", chars "流程"),
   (chars "Instructions", chars "指令"),
   (chars "Description", chars "描述"),
   (chars "Key Principles", chars "关键原则"),
   (chars "Important Notes", chars "重要说明"),
   (chars "Red-Green-Refactor", chars "红绿重构循环"),
   (chars "The Iron Law", chars "铁律"),
   (chars "Exceptions", chars "例外情况")]

/-- `OptimizedBilingualConverter.PARAGRAPH_TRANSLATIONS` (dict in source order). -/
def PARAGRAPH_TRANSLATIONS : List (List Char × List Char) :=
  [(chars "Help turn ideas into fully formed designs and specs through natural collaborative dialogue.",
    chars "【通过自然的对话协作，将想法转化为完整的设计和规格】"),
   (chars "Start by understanding the current project context, then ask questions one at a time to refine the idea.",
    chars "【首先了解当前项目状态，然后逐个提问来完善想法】"),
   (chars "Once you understand what you're building, present the design in small sections (200-300 words), checking after each section whether it looks right so far.",
    chars "【一旦你理解了要构建的内容，分段展示设计（每段 200-300 字），每段后确认是否正确】"),
   (chars "Write the test first. Watch it fail. Write minimal code to pass.",
    chars "【先写测试。看它失败。编写最小代码让它通过】"),
   (chars "Core principle: If you didn't watch the test fail, you don't know if it tests the right thing.",
    chars "【核心原则：如果你没有看到测试失败，你就不知道它是否测试了正确的东西】"),
   (chars "Violating the letter of the rules is violating the spirit of the rules.",
    chars "【违反规则的字面意思就是违反规则的精神】"),
   (chars "NO PRODUCTION CODE WITHOUT A FAILING TEST FIRST",
    chars "【没有失败的测试，就不写生产代码】"),
   (chars "Write code before the test? Delete it. Start over.",
    chars "【在测试之前写了代码？删除它。重新开始】"),
   (chars "Use when encountering any bug, test failure, or unexpected behavior, before proposing fixes.",
    chars "【遇到任何 bug、测试失败或意外行为时使用，在提出修复方案之前】"),
   (chars "Follow these instructions EXACTLY",
    chars "【严格遵循这些指令】"),
   (chars "Do not skip any steps",
    chars "【不要跳过任何步骤】"),
   (chars "If the workflow doesn't apply to the current task, state that clearly",
    chars "【如果工作流程不适用于当前任务，明确说明】"),
   (chars "Write comprehensive implementation plans assuming the engineer has zero context for our codebase and questionable taste.",
    chars "【编写全面的实现计划，假设工程师对代码库零背景且品味存疑】"),
   (chars "Document everything they need to know: which files to touch for each task, code, testing, docs they might need to check, how to test it.",
    chars "【记录他们需要知道的一切：每个任务要修改哪些文件、代码、测试、文档、如何测试】"),
   (chars "A 4-phase process for finding root causes of bugs and unexpected behavior.",
    chars "【一个 4 阶段流程，用于找出 bug 和意外行为的根本原因】")]

/-! ### Frontmatter parser (`parse_skill_md`)

The source matches `re.match(r'^---\n(.*?)\n---\n(.*)', content, re.DOTALL)`.
With the non-greedy group, a successful match takes group 1 up to the FIRST
occurrence of `"\n---\n"` after the leading `"---\n"`; group 2 is everything
after that occurrence.  `findOcc` returns the index of that first occurrence. -/

/-- Index of the first position of `hay` at which `needle` starts, if any. -/
def findOcc (needle : List Char) : List Char → Option Nat
  | [] => if needle.isEmpty then some 0 else none
  | c :: rest =>
    if needle.isPrefixOf (c :: rest) then some 0
    else (findOcc needle rest).map (· + 1)

/-- The closing frontmatter delimiter `"\n---\n"` of the regex. -/
def delimPat : List Char := ['\n', '-', '-', '-', '\n']

/-- Python `dict` assignment `m[k] = v`: overwrite in place, else append. -/
def insertKV : List (List Char × List Char) → List Char → List Char →
    List (List Char × List Char)
  | [], k, v => [(k, v)]
  | p :: rest, k, v =>
    if p.1 = k then (p.1, v) :: rest else p :: insertKV rest k v

/-- Python `s.split('\n')` on a character list. -/
def splitOnNl : List Char → List (List Char)
  | [] => [[]]
  | c :: rest =>
    if c = '\n' then [] :: splitOnNl rest
    else
      match splitOnNl rest with
      | [] => [[c]]
      | l :: ls => (c :: l) :: ls

/-- One iteration of the frontmatter loop: `if ':' in line:
key, value = line.split(':', 1); metadata[key.strip()] = value.strip()`. -/
def parseFMLine (m : List (List Char × List Char)) (line : List Char) :
    List (List Char × List Char) :=
  if ':' ∈ line then
    let k := line.takeWhile (fun c => !(c == ':'))
    let v := (line.dropWhile (fun c => !(c == ':'))).tail
    insertKV m (pyStrip k) (pyStrip v)
  else m

/-- The whole frontmatter loop of `parse_skill_md`. -/
def parseFrontmatter (fm : List Char) : List (List Char × List Char) :=
  (splitOnNl fm).foldl parseFMLine []

/-- `OptimizedBilingualConverter.parse_skill_md` (identical in
`SuperpowersConverter` and `BilingualConverter`). -/
def parse_skill_md (content : List Char) :
    List (List Char × List Char) × List Char :=
  if (chars "---\n").isPrefixOf content then
    match findOcc delimPat (content.drop 4) with
    | some i =>
      (parseFrontmatter ((content.drop 4).take i),
       (content.drop 4).drop (i + 5))
    | none => ([], content)
  else ([], content)

/-! ### Line rewrite rules -/

/-- Whether `line` matches `r'^(#{2,4})\s+' + re.escape(title) + r'\s*$'`.
The hash run and the whitespace run are maximal munches; backtracking cannot
help the regex here because every table title starts with a letter. -/
def titleMatches (title : List Char) (line : List Char) : Bool :=
  let h := (line.takeWhile (fun c => c == '#')).length
  let r := line.drop h
  let w := (r.takeWhile isPySpace).length
  let core := r.drop w
  decide (2 ≤ h) && decide (h ≤ 4) && decide (1 ≤ w) &&
    title.isPrefixOf core && (core.drop title.length).all isPySpace

/-- `OptimizedBilingualConverter.add_title_translation`: on the first table
entry whose title matches, rebuild the line as
`f"{hashes} {en_title} ({zh_title})"`. -/
def add_title_translation (line : List Char) : List Char :=
  match TITLE_TRANSLATIONS.find? (fun p => titleMatches p.1 line) with
  | some p =>
    (line.takeWhile (fun c => c == '#')) ++
      ' ' :: (p.1 ++ ' ' :: '(' :: (p.2 ++ [')']))
  | none => line

/-- The loop of `add_paragraph_translation`: for each table entry whose
English text occurs in the stripped line, return `line + '\n' + zh` — but
only when the line does not already contain `'【'`. -/
def aptLoop : List (List Char × List Char) → List Char → List Char → List Char
  | [], line, _ => line
  | p :: rest, line, stripped =>
    if isSubList p.1 stripped then
      if '【' ∈ line then aptLoop rest line stripped
      else line ++ '\n' :: p.2
    else aptLoop rest line stripped

/-- `OptimizedBilingualConverter.add_paragraph_translation`. -/
def add_paragraph_translation (line : List Char) : List Char :=
  aptLoop PARAGRAPH_TRANSLATIONS line (pyStrip line)

/-- `line.strip().startswith('```')`: the line is a fence boundary marker. -/
def fenceLine (line : List Char) : Bool :=
  (chars "```").isPrefixOf (pyStrip line)

/-- `\w` of the language-tag regex `r'^```\s*(\w+)?'` (ASCII model). -/
def isWordChar (c : Char) : Bool := c.isAlphanum || c == '_'

/-- Language tag extracted on a fence opener: after `` ``` `` skip
whitespace, then take the maximal word-character run (empty if none). -/
def extractLang (line : List Char) : List Char :=
  (((pyStrip line).drop 3).dropWhile isPySpace).takeWhile isWordChar

/-- `OptimizedBilingualConverter.is_code_block`:
returns (is boundary line, new in-block flag, new language). -/
def is_code_block (line : List Char) (in_code_block : Bool)
    (code_block_lang : List Char) : Bool × Bool × List Char :=
  if fenceLine line then
    if in_code_block then (true, false, [])
    else (true, true, extractLang line)
  else (false, in_code_block, code_block_lang)

/-- `OptimizedBilingualConverter.is_list_item`:
`re.match(r'^\s*[-*]\s+', line) is not None`. -/
def is_list_item (line : List Char) : Bool :=
  match line.dropWhile isPySpace with
  | c :: d :: _ => (c == '-' || c == '*') && isPySpace d
  | _ => false

/-- The term table local to `translate_heading_with_term`. -/
def TERM_TRANSLATIONS : List (List Char × List Char) :=
  [(chars "RED", chars "RED (红 - 编写失败的测试)"),
   (chars "GREEN", chars "GREEN (绿 - 编写最小代码)"),
   (chars "REFACTOR", chars "REFACTOR (重构 - 清理代码)")]

/-- `[A-Z-]` of the heading-term regex. -/
def isTermChar (c : Char) : Bool := c.isUpper || c == '-'

/-- `OptimizedBilingualConverter.translate_heading_with_term`:
`re.match(r'^(#{2,4})\s+([A-Z-]+)\s+-\s+(.+)$', line)`, then the all-caps
token is replaced through `TERM_TRANSLATIONS` (default: unchanged) and the
line is rebuilt as `f"{hashes} {translated_term} - {description}"`.
All runs are maximal munches; the only backtracking the regex can do is to
give back one space of the final `\s+` so that `(.+)` is non-empty. -/
def translate_heading_with_term (line : List Char) : List Char :=
  let hashes := line.takeWhile (fun c => c == '#')
  let h := hashes.length
  let r1 := line.drop h
  let w1 := (r1.takeWhile isPySpace).length
  let r2 := r1.drop w1
  let term := r2.takeWhile isTermChar
  let r3 := r2.drop term.length
  let w2 := (r3.takeWhile isPySpace).length
  let r4 := r3.drop w2
  if 2 ≤ h ∧ h ≤ 4 ∧ 1 ≤ w1 ∧ term ≠ [] ∧ 1 ≤ w2 ∧ r4.head? = some '-' then
    let r5 := r4.tail
    let w3 := (r5.takeWhile isPySpace).length
    let r6 := r5.drop w3
    let tterm := ((TERM_TRANSLATIONS.find? (fun p => p.1 == term)).map
      Prod.snd).getD term
    if 1 ≤ w3 ∧ r6 ≠ [] then
      hashes ++ ' ' :: (tterm ++ ' ' :: '-' :: ' ' :: r6)
    else if 2 ≤ w3 then
      hashes ++ ' ' :: (tterm ++ ' ' :: '-' :: ' ' :: [' '])
    else line
  else line

/-- `'superpowers:'`, the fixed prefix of the reference pattern
`r'superpowers:([a-zA-Z-]+)'`. -/
def refPat : List Char :=
  ['s', 'u', 'p', 'e', 'r', 'p', 'o', 'w', 'e', 'r', 's', ':']

/-- `[a-zA-Z-]` of the reference pattern (ASCII letters or hyphen). -/
def isIdChar (c : Char) : Bool := c.isAlpha || c == '-'

/-- An occurrence of the reference pattern starts at the head of `l`. -/
def refHit (l : List Char) : Bool :=
  refPat.isPrefixOf l && !((l.drop 12).takeWhile isIdChar).isEmpty

/-- The substitution template `r'切换到技能 \1.md (使用 gskill \1)'`. -/
def refRepl (idtok : List Char) : List Char :=
  chars "切换到技能 " ++ idtok ++ chars ".md (使用 gskill " ++ idtok ++ [')']

/-- The `re.sub` scan with explicit fuel (each step consumes at least one
character, so any fuel of at least `l.length` computes the full result). -/
def rsrAux : Nat → List Char → List Char
  | _, [] => []
  | 0, l => l
  | fuel + 1, c :: rest =>
    if refHit (c :: rest) then
      let t := ((c :: rest).drop 12).takeWhile isIdChar
      refRepl t ++ rsrAux fuel (((c :: rest).drop 12).drop t.length)
    else c :: rsrAux fuel rest

/-- `OptimizedBilingualConverter.replace_superpowers_references`: `re.sub`
replaces every leftmost non-overlapping occurrence of the pattern, with the
identifier group matched greedily. -/
def replace_superpowers_references (l : List Char) : List Char :=
  rsrAux l.length l

/-- Some occurrence of the reference pattern exists in `l`. -/
def hasRef : List Char → Bool
  | [] => false
  | c :: rest => refHit (c :: rest) || hasRef rest

/-! ### Body-processing loop of `convert_skill_to_bilingual` (lines 217-255) -/

/-- The two mutable loop variables `in_code_block` / `code_block_lang`. -/
structure FenceState where
  inCB : Bool
  lang : List Char
deriving DecidableEq, Repr

/-- One iteration of the `for i, line in enumerate(lines)` loop: update the
fence state via `is_code_block`, then emit the (possibly rewritten) line. -/
def processLine (st : FenceState) (line : List Char) :
    FenceState × List Char :=
  let r := is_code_block line st.inCB st.lang
  if r.1 then (⟨r.2.1, r.2.2⟩, line)
  else if r.2.1 then
    if r.2.2 = chars "markdown" then
      (⟨r.2.1, r.2.2⟩, replace_superpowers_references line)
    else (⟨r.2.1, r.2.2⟩, line)
  else
    let n1 := add_title_translation line
    let n2 := translate_heading_with_term n1
    let n3 := replace_superpowers_references n2
    let n4 :=
      if !is_list_item n3 && !(n3.head? == some '#') then
        add_paragraph_translation n3
      else n3
    (⟨r.2.1, r.2.2⟩, n4)

/-- The whole loop over the body lines, threading the fence state. -/
def processBody : FenceState → List (List Char) → FenceState × List (List Char)
  | st, [] => (st, [])
  | st, l :: ls =>
    let r := processLine st l
    let rs := processBody r.1 ls
    (rs.1, r.2 :: rs.2)

/-- The state at the start of the body loop. -/
def initFence : FenceState := ⟨false, []⟩

/-! ### Document assembler and batch driver -/

/-- Python `'\n'.join(lines)`. -/
def joinNl : List (List Char) → List Char
  | [] => []
  | [l] => l
  | l :: ls => l ++ '\n' :: joinNl ls

/-- Helper for `pyTitle`: the boolean records whether the previous character
was a letter. -/
def pyTitleGo : Bool → List Char → List Char
  | _, [] => []
  | prevAlpha, c :: rest =>
    if c.isAlpha then
      (if prevAlpha then c.toLower else c.toUpper) :: pyTitleGo true rest
    else c :: pyTitleGo false rest

/-- Python `str.title()` (ASCII model): first letter of each letter run
uppercased, the rest lowercased. -/
def pyTitle (l : List Char) : List Char := pyTitleGo false l

/-- Python `dict.get(k)` on the association lists built by `insertKV`. -/
def lookupKV (m : List (List Char × List Char)) (k : List Char) :
    Option (List Char) :=
  (m.find? (fun p => p.1 == k)).map Prod.snd

/-- `OptimizedBilingualConverter.convert_skill_to_bilingual`, with the file
read replaced by its two data inputs: the skill's parent-directory name and
the file content.  Produces the rendered output document. -/
def convert_skill_to_bilingual (parentName content : List Char) : List Char :=
  let pr := parse_skill_md content
  let skill_name := (lookupKV pr.1 (chars "name")).getD parentName
  let description := (lookupKV pr.1 (chars "description")).getD []
  let skill_name_zh := (lookupKV SKILL_NAMES skill_name).getD skill_name
  let translated := (processBody initFence (splitOnNl pr.2)).2
  chars "# " ++
    pyTitle (skill_name.map (fun c => if c == '-' then ' ' else c)) ++
    chars " (" ++ skill_name_zh ++
    chars ")\n\n## Description / 描述\n" ++ description ++
    chars "\n\n## Instructions / 指令\n\n" ++ joinNl translated ++
    chars "\n\n---\n\n## 使用说明 / Usage Notes\n\n### 技能触发 / When to Use\n" ++
    description ++
    chars "\n\n### 注意事项 / Important Notes\n- Follow all instructions exactly / 严格遵循所有指令\n- Code blocks and commands remain in English / 代码块和命令保持英文\n- Technical terms are kept in original form / 技术术语保持原形式\n- Skill references use gskill command / 技能引用使用 gskill 命令\n"

/-- The `skill_name` computed per file inside `convert_all`. -/
def skill_name_of (parentName content : List Char) : List Char :=
  (lookupKV (parse_skill_md content).1 (chars "name")).getD parentName

/-- `OptimizedBilingualConverter.convert_all`, with the file system modelled
as data: the input is the list of `(parent directory name, file content)`
pairs that `source_dir.glob('*/SKILL.md')` found (empty when the source root
does not exist or matches nothing — `Path.glob` raises nothing then).
Returns the per-skill output files as `(file name, content)` pairs together
with the reported count `len(skill_files)`; the auxiliary usage guide and
the copied switch scripts are not per-skill outputs and are out of scope. -/
def convert_all (files : List (List Char × List Char)) :
    List (List Char × List Char) × Nat :=
  (files.map (fun f =>
    (skill_name_of f.1 f.2 ++ chars ".md", convert_skill_to_bilingual f.1 f.2)),
   files.length)

/-! ### Document assembly used to state the frontmatter round-trip claim -/

/-- The frontmatter region: the `'<key>: <value>'` lines joined by newlines. -/
def fmOf (kvs : List (List Char × List Char)) : List Char :=
  joinNl (kvs.map (fun p => p.1 ++ ':' :: ' ' :: p.2))

/-- A document assembled as `---`, key-value lines, `---`, then the body. -/
def mkDoc (kvs : List (List Char × List Char)) (body : List Char) : List Char :=
  chars "---\n" ++ fmOf kvs ++ delimPat ++ body

/-! ## General helper lemmas -/

/-- Dropping as many elements as `takeWhile` keeps is `dropWhile`. -/
theorem drop_takeWhile_length (p : Char → Bool) (l : List Char) :
    l.drop ((l.takeWhile p).length) = l.dropWhile p := by
  calc l.drop ((l.takeWhile p).length)
      = (l.takeWhile p ++ l.dropWhile p).drop ((l.takeWhile p).length) := by
        rw [List.takeWhile_append_dropWhile]
    _ = l.dropWhile p := List.drop_left _ _

/-- `find?` returns the designated element when it is the only satisfying one. -/
theorem find?_eq_some_of_unique {α : Type} {P : α → Bool} {l : List α} {p : α}
    (hmem : p ∈ l) (hp : P p = true) (huniq : ∀ q ∈ l, P q = true → q = p) :
    l.find? P = some p := by
  induction l with
  | nil => cases hmem
  | cons a as ih =>
    by_cases ha : P a = true
    · have hap : a = p := huniq a (List.mem_cons_self a as) ha
      rw [List.find?_cons_of_pos _ ha, hap]
    · rw [List.find?_cons_of_neg _ ha]
      have hpas : p ∈ as := by
        cases List.mem_cons.mp hmem with
        | inl h => exact absurd (h ▸ hp) ha
        | inr h => exact h
      exact ih hpas (fun q hq hPq => huniq q (List.mem_cons_of_mem _ hq) hPq)

/-! ## Lemmas about the paragraph-translation loop -/

/-- Table fact: every translation text contains the bracket `'【'`. -/
theorem para_tbl_bracket : ∀ p ∈ PARAGRAPH_TRANSLATIONS, '【' ∈ p.2 := by decide

/-- Table fact: no translation text contains a newline. -/
theorem para_tbl_no_nl : ∀ p ∈ PARAGRAPH_TRANSLATIONS, '\n' ∉ p.2 := by decide

/-- The loop never changes a line that already contains `'【'`. -/
theorem aptLoop_bracket (tbl : List (List Char × List Char)) (line s : List Char)
    (h : '【' ∈ line) : aptLoop tbl line s = line := by
  induction tbl with
  | nil => rfl
  | cons p rest ih => by_cases hps : isSubList p.1 s <;> simp [aptLoop, hps, h, ih]

/-- The loop leaves the line unchanged when no entry occurs in `s`. -/
theorem aptLoop_none (tbl : List (List Char × List Char)) (line s : List Char)
    (h : tbl.find? (fun q => isSubList q.1 s) = none) :
    aptLoop tbl line s = line := by
  induction tbl with
  | nil => rfl
  | cons p rest ih =>
    cases hps : isSubList p.1 s with
    | true =>
      simp only [List.find?_cons, hps] at h
      cases h
    | false =>
      simp only [List.find?_cons, hps] at h
      simp [aptLoop, hps, ih h]

/-- On a bracket-free line, the loop appends the translation of the first
entry occurring in `s`. -/
theorem aptLoop_some (tbl : List (List Char × List Char)) (line s : List Char)
    (p : List Char × List Char) (hb : '【' ∉ line)
    (h : tbl.find? (fun q => isSubList q.1 s) = some p) :
    aptLoop tbl line s = line ++ '\n' :: p.2 := by
  induction tbl with
  | nil => cases h
  | cons q rest ih =>
    cases hqs : isSubList q.1 s with
    | true =>
      simp only [List.find?_cons, hqs, Option.some.injEq] at h
      subst h
      simp [aptLoop, hqs, hb]
    | false =>
      simp only [List.find?_cons, hqs] at h
      simp [aptLoop, hqs, ih h]


/-! ## Claim C1 (corrected) -/

/-- C1 counterexample: the line `"Note: Do not skip any steps today"` is no
heading and no list item, its trimmed text EQUALS no entry of the paragraph
table, yet — because it merely CONTAINS the entry
`"Do not skip any steps"` as a proper substring — the paragraph-translation
rule still appends a translation line.  This refutes the claim's
"if and only if the trimmed line exactly equals one of the known English
paragraph strings ... a line that merely contains a table entry as a proper
substring ... gains no inserted line". -/
theorem c1_exact_match_counterexample :
    (PARAGRAPH_TRANSLATIONS.all
      (fun p => !(p.1 == pyStrip (chars "Note: Do not skip any steps today")))) = true ∧
    is_list_item (chars "Note: Do not skip any steps today") = false ∧
    (chars "Note: Do not skip any steps today").head? ≠ some '#' ∧
    add_paragraph_translation (chars "Note: Do not skip any steps today") =
      chars "Note: Do not skip any steps today" ++ '\n' :: chars "【不要跳过任何步骤】" :=
  ⟨by decide, by decide, by decide, by decide⟩

/-- C1 (amended): the paragraph-translation rule appends a translation line
immediately after the line if and only if the trimmed line CONTAINS one of
the known English paragraph strings as a substring and the line does not
already contain the bracket character `'【'`; the appended translation is
the one of the first such table entry (in table order), and otherwise the
line is returned unchanged. -/
theorem c1_substring_match_amended (line : List Char) :
    ('【' ∈ line → add_paragraph_translation line = line) ∧
    (PARAGRAPH_TRANSLATIONS.find? (fun q => isSubList q.1 (pyStrip line)) = none →
      add_paragraph_translation line = line) ∧
    (∀ p, '【' ∉ line →
      PARAGRAPH_TRANSLATIONS.find? (fun q => isSubList q.1 (pyStrip line)) = some p →
      add_paragraph_translation line = line ++ '\n' :: p.2) :=
  ⟨fun h => aptLoop_bracket _ _ _ h,
   fun h => aptLoop_none _ _ _ h,
   fun p hb h => aptLoop_some _ _ _ p hb h⟩

/-- Witness for `c1_substring_match_amended` at a concrete line. -/
theorem c1_substring_match_amended_w :
    add_paragraph_translation (chars "See: Follow these instructions EXACTLY") =
      chars "See: Follow these instructions EXACTLY" ++ '\n' :: chars "【严格遵循这些指令】" :=
  (c1_substring_match_amended (chars "See: Follow these instructions EXACTLY")).2.2
    (chars "Follow these instructions EXACTLY", chars "【严格遵循这些指令】")
    (by decide) (by decide)

/-! ## Claim C7 (confirmed) -/

/-- C7: a line already containing the bracket character gains no insertion,
and the paragraph-translation rule is idempotent — running it on its own
output (bracketed or not) changes nothing further. -/
theorem c7_paragraph_translation_idempotent (line : List Char) :
    ('【' ∈ line → add_paragraph_translation line = line) ∧
    add_paragraph_translation (add_paragraph_translation line) =
      add_paragraph_translation line := by
  refine ⟨fun h => aptLoop_bracket _ _ _ h, ?_⟩
  by_cases hb : '【' ∈ line
  · rw [show add_paragraph_translation line = line from aptLoop_bracket _ _ _ hb]
    exact aptLoop_bracket _ _ _ hb
  · cases hf : PARAGRAPH_TRANSLATIONS.find? (fun q => isSubList q.1 (pyStrip line)) with
    | none =>
      rw [show add_paragraph_translation line = line from aptLoop_none _ _ _ hf]
      exact aptLoop_none _ _ _ hf
    | some p =>
      have h1 : add_paragraph_translation line = line ++ '\n' :: p.2 :=
        aptLoop_some _ _ _ p hb hf
      have hzh : '【' ∈ p.2 := para_tbl_bracket p (List.mem_of_find?_eq_some hf)
      have hmem : '【' ∈ line ++ '\n' :: p.2 :=
        List.mem_append_right _ (List.mem_cons_of_mem _ hzh)
      rw [h1]
      exact aptLoop_bracket _ _ _ hmem

/-- Witness for `c7_paragraph_translation_idempotent` at concrete lines. -/
theorem c7_paragraph_translation_idempotent_w :
    add_paragraph_translation (chars "x 【已处理】 y") = chars "x 【已处理】 y" ∧
    add_paragraph_translation
        (add_paragraph_translation (chars "Do not skip any steps")) =
      add_paragraph_translation (chars "Do not skip any steps") :=
  ⟨(c7_paragraph_translation_idempotent (chars "x 【已处理】 y")).1 (by decide),
   (c7_paragraph_translation_idempotent (chars "Do not skip any steps")).2⟩

/-! ## Claim C10 (confirmed) -/

/-- C10: the paragraph-translation rule inserts at most one translation
line: its result is either the line unchanged, or the line followed by
exactly one (newline-free) translation — the one of the FIRST table entry
occurring in the stripped line. -/
theorem c10_at_most_one_insertion (line : List Char) :
    add_paragraph_translation line = line ∨
    ∃ p, PARAGRAPH_TRANSLATIONS.find? (fun q => isSubList q.1 (pyStrip line)) = some p ∧
      '\n' ∉ p.2 ∧
      add_paragraph_translation line = line ++ '\n' :: p.2 := by
  by_cases hb : '【' ∈ line
  · exact Or.inl (aptLoop_bracket _ _ _ hb)
  · cases hf : PARAGRAPH_TRANSLATIONS.find? (fun q => isSubList q.1 (pyStrip line)) with
    | none => exact Or.inl (aptLoop_none _ _ _ hf)
    | some p =>
      exact Or.inr ⟨p, rfl, para_tbl_no_nl p (List.mem_of_find?_eq_some hf),
        aptLoop_some _ _ _ p hb hf⟩

/-! ## Lemmas about the heading-annotation rule -/

/-- A whitespace character is not `'#'`. -/
theorem pySpace_not_hash {c : Char} (h : isPySpace c = true) : (c == '#') = false := by
  cases hcb : c == '#' with
  | false => rfl
  | true =>
    have hc : c = '#' := eq_of_beq hcb
    subst hc
    exact absurd h (by decide)

/-- Table fact: every title starts with a non-whitespace, non-`'#'` character. -/
theorem title_tbl_head : ∀ p ∈ TITLE_TRANSLATIONS,
    (p.1.head?.any (fun c => !isPySpace c && !(c == '#'))) = true := by decide

/-- Table fact: no title is a (possibly proper) prefix of a different title. -/
theorem title_tbl_no_pref : ∀ p ∈ TITLE_TRANSLATIONS, ∀ q ∈ TITLE_TRANSLATIONS,
    p.1 <+: q.1 → p.1 = q.1 := by decide

/-- Table fact: titles are unique keys. -/
theorem title_tbl_key_unique : ∀ p ∈ TITLE_TRANSLATIONS, ∀ q ∈ TITLE_TRANSLATIONS,
    p.1 = q.1 → p = q := by decide

/-- Extract the head structure of a table title. -/
theorem title_head_decomp {t g : List Char} (hmem : (t, g) ∈ TITLE_TRANSLATIONS) :
    ∃ c0 t', t = c0 :: t' ∧ isPySpace c0 = false ∧ (c0 == '#') = false := by
  have h := title_tbl_head (t, g) hmem
  cases t with
  | nil => simp at h
  | cons c0 t' =>
    simp only [List.head?_cons, Option.any_some, Bool.and_eq_true,
      Bool.not_eq_true'] at h
    exact ⟨c0, t', rfl, h.1, h.2⟩

/-- The leading `'#'` run of a decomposed heading line. -/
theorem scan_tw_hash (h : Nat) (ws : List Char) (rest : List Char)
    (hws : ws ≠ []) (hwa : ∀ x ∈ ws, isPySpace x = true) :
    (List.replicate h '#' ++ (ws ++ rest)).takeWhile (fun c => c == '#') =
      List.replicate h '#' := by
  rw [List.takeWhile_append_of_pos
    (by intro a ha; simp [List.eq_of_mem_replicate ha])]
  cases ws with
  | nil => exact absurd rfl hws
  | cons w0 ws' =>
    rw [List.cons_append,
      List.takeWhile_cons_of_neg
        (by simp [pySpace_not_hash (hwa w0 (List.mem_cons_self _ _))])]
    simp

/-- `titleMatches` on a line decomposed as hashes, whitespace, then a core
that starts with a non-space non-hash character. -/
theorem titleMatches_decomp (q : List Char) (h : Nat) (ws : List Char)
    (c0 : Char) (rest : List Char)
    (hws : ws ≠ []) (hwa : ∀ x ∈ ws, isPySpace x = true)
    (hc0 : isPySpace c0 = false) :
    titleMatches q (List.replicate h '#' ++ (ws ++ c0 :: rest)) =
      (decide (2 ≤ h) && decide (h ≤ 4) && q.isPrefixOf (c0 :: rest) &&
        ((c0 :: rest).drop q.length).all isPySpace) := by
  have htw := scan_tw_hash h ws (c0 :: rest) hws hwa
  have hdrop : (List.replicate h '#' ++ (ws ++ c0 :: rest)).drop h = ws ++ c0 :: rest :=
    List.drop_left' (by simp)
  have hsp : (ws ++ c0 :: rest).takeWhile isPySpace = ws := by
    rw [List.takeWhile_append_of_pos hwa, List.takeWhile_cons_of_neg (by simp [hc0])]
    simp
  have hspd : (ws ++ c0 :: rest).drop ws.length = c0 :: rest := List.drop_left _ _
  have hw1 : decide (1 ≤ ws.length) = true := by
    cases ws with
    | nil => exact absurd rfl hws
    | cons a b => simp
  simp only [titleMatches]
  rw [htw, List.length_replicate, hdrop, hsp, hspd, hw1]
  simp [Bool.and_assoc, Bool.true_and, Bool.and_true]

/-! ## Claim C6 (confirmed) -/

/-- C6: (a) on a non-fenced line of the form "2-4 leading `#` characters,
whitespace, exactly one known English section title, then only trailing
whitespace", the heading-annotation rule emits the heading markers and the
title text verbatim with the localized gloss appended in parentheses after
the title; (b) a line whose leading `#` run is shorter than 2 or longer
than 4 is left unchanged; (c) a heading line with extra non-whitespace text
after the title is left unchanged. -/
theorem c6_heading_gloss :
    (∀ (h : Nat) (ws t g ws2 : List Char), 2 ≤ h → h ≤ 4 → ws ≠ [] →
      (∀ x ∈ ws, isPySpace x = true) → (∀ x ∈ ws2, isPySpace x = true) →
      (t, g) ∈ TITLE_TRANSLATIONS →
      add_title_translation (List.replicate h '#' ++ ws ++ t ++ ws2) =
        List.replicate h '#' ++ ' ' :: (t ++ ' ' :: '(' :: (g ++ [')']))) ∧
    (∀ line : List Char,
      (line.takeWhile (fun c => c == '#')).length < 2 ∨
        4 < (line.takeWhile (fun c => c == '#')).length →
      add_title_translation line = line) ∧
    (∀ (h : Nat) (ws t g rest : List Char), 2 ≤ h → h ≤ 4 → ws ≠ [] →
      (∀ x ∈ ws, isPySpace x = true) → (t, g) ∈ TITLE_TRANSLATIONS →
      (∃ c ∈ rest, isPySpace c = false) →
      add_title_translation (List.replicate h '#' ++ ws ++ t ++ rest) =
        List.replicate h '#' ++ ws ++ t ++ rest) := by
  refine ⟨?_, ?_, ?_⟩
  · intro h ws t g ws2 hh2 hh4 hws hwa hwa2 hmem
    obtain ⟨c0, t', rfl, hc0, hch⟩ := title_head_decomp hmem
    have hline : List.replicate h '#' ++ ws ++ (c0 :: t') ++ ws2 =
        List.replicate h '#' ++ (ws ++ c0 :: (t' ++ ws2)) := by
      simp [List.append_assoc]
    rw [hline]
    have htpre : (c0 :: t') <+: (c0 :: (t' ++ ws2)) := by
      simp [List.prefix_append]
    have hdrop2 : (c0 :: (t' ++ ws2)).drop (c0 :: t').length = ws2 := by
      simp only [List.length_cons, List.drop_succ_cons]
      exact List.drop_left _ _
    have hfind : TITLE_TRANSLATIONS.find?
        (fun p => titleMatches p.1
          (List.replicate h '#' ++ (ws ++ c0 :: (t' ++ ws2)))) =
        some (c0 :: t', g) := by
      apply find?_eq_some_of_unique hmem
      · rw [titleMatches_decomp _ h ws c0 _ hws hwa hc0]
        simp only [Bool.and_eq_true, decide_eq_true_eq]
        refine ⟨⟨⟨hh2, hh4⟩, ?_⟩, ?_⟩
        · simp [htpre]
        · rw [hdrop2, List.all_eq_true]
          exact hwa2
      · intro q hq hPq
        rw [titleMatches_decomp _ h ws c0 _ hws hwa hc0] at hPq
        simp only [Bool.and_eq_true, decide_eq_true_eq,
          List.isPrefixOf_iff_prefix, List.all_eq_true] at hPq
        obtain ⟨⟨⟨-, -⟩, hpre⟩, hall⟩ := hPq
        rcases Nat.le_total q.1.length (c0 :: t').length with hle | hge
        · have hq1 : q.1 <+: (c0 :: t') :=
            List.prefix_of_prefix_length_le hpre htpre hle
          exact title_tbl_key_unique q hq _ hmem
            (title_tbl_no_pref q hq ((c0 :: t'), g) hmem hq1)
        · have hq1 : (c0 :: t') <+: q.1 :=
            List.prefix_of_prefix_length_le htpre hpre hge
          exact title_tbl_key_unique q hq _ hmem
            (title_tbl_no_pref ((c0 :: t'), g) hmem q hq hq1).symm
    simp only [add_title_translation, hfind]
    rw [scan_tw_hash h ws (c0 :: (t' ++ ws2)) hws hwa]
  · intro line hlt
    have hall : ∀ q ∈ TITLE_TRANSLATIONS, ¬ (titleMatches q.1 line = true) := by
      intro q hq hP
      simp only [titleMatches, Bool.and_eq_true, decide_eq_true_eq] at hP
      obtain ⟨⟨⟨⟨h2, h4⟩, -⟩, -⟩, -⟩ := hP
      omega
    simp only [add_title_translation, List.find?_eq_none.mpr hall]
  · intro h ws t g rest hh2 hh4 hws hwa hmem hex
    obtain ⟨c0, t', rfl, hc0, hch⟩ := title_head_decomp hmem
    obtain ⟨cbad, hcbadmem, hcbad⟩ := hex
    have hline : List.replicate h '#' ++ ws ++ (c0 :: t') ++ rest =
        List.replicate h '#' ++ (ws ++ c0 :: (t' ++ rest)) := by
      simp [List.append_assoc]
    rw [hline]
    have htpre : (c0 :: t') <+: (c0 :: (t' ++ rest)) := by
      simp [List.prefix_append]
    have hdrop2 : (c0 :: (t' ++ rest)).drop (c0 :: t').length = rest := by
      simp only [List.length_cons, List.drop_succ_cons]
      exact List.drop_left _ _
    have hnone : TITLE_TRANSLATIONS.find?
        (fun p => titleMatches p.1
          (List.replicate h '#' ++ (ws ++ c0 :: (t' ++ rest)))) = none := by
      rw [List.find?_eq_none]
      intro q hq hP
      rw [titleMatches_decomp _ h ws c0 _ hws hwa hc0] at hP
      simp only [Bool.and_eq_true, decide_eq_true_eq,
        List.isPrefixOf_iff_prefix, List.all_eq_true] at hP
      obtain ⟨⟨⟨-, -⟩, hpre⟩, hall⟩ := hP
      have heq : q.1 = c0 :: t' := by
        rcases Nat.le_total q.1.length (c0 :: t').length with hle | hge
        · exact title_tbl_no_pref q hq ((c0 :: t'), g) hmem
            (List.prefix_of_prefix_length_le hpre htpre hle)
        · exact (title_tbl_no_pref ((c0 :: t'), g) hmem q hq
            (List.prefix_of_prefix_length_le htpre hpre hge)).symm
      rw [heq, hdrop2] at hall
      have := hall cbad hcbadmem
      rw [hcbad] at this
      cases this
    simp only [add_title_translation, hnone]

/-- Witness for `c6_heading_gloss` at concrete heading lines. -/
theorem c6_heading_gloss_w :
    add_title_translation
        (List.replicate 2 '#' ++ [' ', ' '] ++ chars "Overview" ++ [' ']) =
      List.replicate 2 '#' ++ ' ' :: (chars "Overview" ++ ' ' :: '(' ::
        (chars "概述" ++ [')'])) ∧
    add_title_translation (chars "# Overview") = chars "# Overview" ∧
    add_title_translation
        (List.replicate 2 '#' ++ [' '] ++ chars "The Iron Law" ++ chars " extra") =
      List.replicate 2 '#' ++ [' '] ++ chars "The Iron Law" ++ chars " extra" :=
  ⟨c6_heading_gloss.1 2 [' ', ' '] (chars "Overview") (chars "概述") [' ']
     (by decide) (by decide) (by decide) (by decide) (by decide) (by decide),
   c6_heading_gloss.2.1 (chars "# Overview") (by decide),
   c6_heading_gloss.2.2 2 [' '] (chars "The Iron Law") (chars "铁律") (chars " extra")
     (by decide) (by decide) (by decide) (by decide) (by decide) (by decide)⟩

/-! ## Lemmas about the reference-rewrite rule -/

/-- Any fuel at least the list length computes the same `rsrAux` result. -/
theorem rsrAux_fuel : ∀ (f1 f2 : Nat) (l : List Char), l.length ≤ f1 →
    l.length ≤ f2 → rsrAux f1 l = rsrAux f2 l := by
  intro f1
  induction f1 with
  | zero =>
    intro f2 l hl1 _
    have : l = [] := List.eq_nil_of_length_eq_zero (Nat.le_zero.mp hl1)
    subst this
    cases f2 <;> rfl
  | succ f1 ih =>
    intro f2 l hl1 hl2
    cases l with
    | nil => cases f2 <;> rfl
    | cons c rest =>
      cases f2 with
      | zero => simp at hl2
      | succ f2 =>
        simp only [rsrAux]
        by_cases hh : refHit (c :: rest)
        · rw [if_pos hh, if_pos hh]
          congr 1
          apply ih
          · simp only [List.length_drop, List.length_cons] at *
            omega
          · simp only [List.length_drop, List.length_cons] at *
            omega
        · rw [if_neg hh, if_neg hh]
          congr 1
          apply ih
          · simp only [List.length_cons] at hl1
            omega
          · simp only [List.length_cons] at hl2
            omega

/-- The one-step unfolding of `replace_superpowers_references` on a cons. -/
theorem rsr_cons (c : Char) (rest : List Char) :
    replace_superpowers_references (c :: rest) =
      if refHit (c :: rest) then
        refRepl (((c :: rest).drop 12).takeWhile isIdChar) ++
          replace_superpowers_references
            (((c :: rest).drop 12).drop
              ((((c :: rest).drop 12).takeWhile isIdChar).length))
      else c :: replace_superpowers_references rest := by
  show rsrAux (rest.length + 1) (c :: rest) = _
  simp only [rsrAux]
  by_cases hh : refHit (c :: rest)
  · rw [if_pos hh, if_pos hh]
    congr 1
    apply rsrAux_fuel
    · simp only [List.length_drop, List.length_cons]
      omega
    · exact le_refl _
  · rw [if_neg hh, if_neg hh]
    rfl

/-- `refHit` holds exactly when the pattern plus one identifier character is
a prefix. -/
theorem refHit_iff (l : List Char) : refHit l = true ↔
    ∃ d, isIdChar d = true ∧ (refPat ++ [d]) <+: l := by
  unfold refHit
  constructor
  · intro h
    rw [Bool.and_eq_true] at h
    obtain ⟨hpre, hne⟩ := h
    rw [ List.isPrefixOf_iff_prefix] at hpre
    obtain ⟨rest', rfl⟩ := hpre
    have hdrop : (refPat ++ rest').drop 12 = rest' := List.drop_left' rfl
    rw [hdrop] at hne
    cases rest' with
    | nil => simp at hne
    | cons d w =>
      cases hd : isIdChar d with
      | false => rw [List.takeWhile_cons_of_neg (by simp [hd])] at hne; simp at hne
      | true =>
        refine ⟨d, hd, ?_⟩
        have : refPat ++ [d] ++ w = refPat ++ d :: w := by simp
        rw [← this]
        exact List.prefix_append _ _
  · rintro ⟨d, hd, hp⟩
    obtain ⟨w, hw⟩ := hp
    rw [List.append_assoc, List.singleton_append] at hw
    rw [← hw]
    have hdrop : (refPat ++ d :: w).drop 12 = d :: w := List.drop_left' rfl
    rw [Bool.and_eq_true]
    constructor
    · rw [ List.isPrefixOf_iff_prefix]
      exact List.prefix_append _ _
    · rw [hdrop, List.takeWhile_cons_of_pos (by simp [hd])]
      simp

/-- The reference pattern cannot start inside a colon-free block and
continue across a character that does not occur in the pattern. -/
theorem refPat_not_across (y : List Char) (d : Char) (z : List Char)
    (hy : ':' ∉ y) (hd : d ∉ refPat) : ¬ (refPat <+: y ++ d :: z) := by
  intro hp
  rw [List.prefix_iff_eq_take] at hp
  have hlen : refPat.length = 12 := rfl
  rw [hlen] at hp
  rcases Nat.lt_or_ge y.length 12 with hlt | hge
  · rw [List.take_append_eq_append_take, List.take_of_length_le (by omega),
      show 12 - y.length = (11 - y.length) + 1 from by omega,
      List.take_succ_cons] at hp
    have hdm : d ∈ refPat := by
      rw [hp]
      exact List.mem_append_right _ (List.mem_cons_self _ _)
    exact hd hdm
  · rw [List.take_append_of_le_length hge] at hp
    have hc : ':' ∈ refPat := by decide
    rw [hp] at hc
    exact hy (List.mem_of_mem_take hc)

/-- Appending a colon-free block ending in a non-pattern character in front
of a reference-free list yields a reference-free list. -/
theorem hasRef_append_safe (y : List Char) (d : Char) (z : List Char)
    (hy : ':' ∉ y) (hd : d ∉ refPat) (hz : hasRef z = false) :
    hasRef (y ++ d :: z) = false := by
  induction y with
  | nil =>
    simp only [List.nil_append, hasRef, List.append_eq]
    have hhit : refHit (d :: z) = false := by
      cases h4 : refHit (d :: z) with
      | false => rfl
      | true =>
        exfalso
        obtain ⟨e, _, hp⟩ := (refHit_iff _).mp h4
        have hp2 : refPat <+: d :: z := (List.prefix_append refPat [e]).trans hp
        exact refPat_not_across [] d z (by simp) hd (by simpa using hp2)
    rw [hhit, hz]
    rfl
  | cons a y' ih =>
    simp only [List.cons_append, hasRef, List.append_eq]
    have hy' : ':' ∉ y' := fun h => hy (List.mem_cons_of_mem _ h)
    have hhit : refHit (a :: (y' ++ d :: z)) = false := by
      cases h4 : refHit (a :: (y' ++ d :: z)) with
      | false => rfl
      | true =>
        exfalso
        obtain ⟨e, _, hp⟩ := (refHit_iff _).mp h4
        have hp2 : refPat <+: (a :: y') ++ d :: z := by
          simpa using (List.prefix_append refPat [e]).trans hp
        exact refPat_not_across (a :: y') d z hy hd hp2
    rw [hhit, ih hy']
    rfl

/-- The head of a pattern suffix followed by the character `d` is either a
pattern character or `d` itself. -/
theorem ref_suffix_head (j : Nat) (d : Char) (c : Char) (q' : List Char)
    (h : refPat.drop j ++ [d] = c :: q') : c ∈ refPat ∨ c = d := by
  cases hdj : refPat.drop j with
  | nil =>
    rw [hdj] at h
    simp only [List.nil_append, List.cons.injEq] at h
    exact Or.inr h.1.symm
  | cons a w =>
    rw [hdj] at h
    simp only [List.cons_append, List.cons.injEq] at h
    left
    have ha : a ∈ refPat.drop j := by rw [hdj]; exact List.mem_cons_self _ _
    exact h.1 ▸ List.drop_subset _ _ ha

/-- A pattern occurrence (suffix of the pattern from position `j`, followed
by an identifier character) at the front of the rewritten list must already
be present at the front of the input list. -/
theorem ref_prefix_transfer : ∀ (n : Nat) (l : List Char), l.length ≤ n →
    ∀ (j : Nat) (d : Char), j ≤ 12 → isIdChar d = true →
    (refPat.drop j ++ [d]) <+: replace_superpowers_references l →
    (refPat.drop j ++ [d]) <+: l := by
  intro n
  induction n with
  | zero =>
    intro l hl j d _ _ hp
    have hnil : l = [] := List.eq_nil_of_length_eq_zero (Nat.le_zero.mp hl)
    subst hnil
    simp only [show replace_superpowers_references [] = [] from rfl,
      List.prefix_nil] at hp
    exact absurd hp (by simp)
  | succ n ih =>
    intro l hl j d hj hd hp
    cases l with
    | nil =>
      simp only [show replace_superpowers_references [] = [] from rfl,
        List.prefix_nil] at hp
      exact absurd hp (by simp)
    | cons c rest =>
      rw [rsr_cons] at hp
      by_cases hh : refHit (c :: rest)
      · rw [if_pos hh] at hp
        exfalso
        set t := ((c :: rest).drop 12).takeWhile isIdChar with ht
        have hshape : refRepl t ++ replace_superpowers_references
              (((c :: rest).drop 12).drop t.length) =
            '切' :: (chars "换到技能 " ++ t ++ chars ".md (使用 gskill " ++ t ++
              [')'] ++ replace_superpowers_references
                (((c :: rest).drop 12).drop t.length)) := by
          show (chars "切换到技能 " ++ t ++ chars ".md (使用 gskill " ++ t ++
            [')']) ++ _ = _
          rw [show chars "切换到技能 " = '切' :: chars "换到技能 " from by decide]
          simp [List.append_assoc]
        rw [hshape] at hp
        cases hq : refPat.drop j ++ [d] with
        | nil => exact absurd hq (by simp)
        | cons q0 q' =>
          rw [hq] at hp
          have h0 : q0 = '切' := (List.cons_prefix_cons.mp hp).1
          rcases ref_suffix_head j d q0 q' hq with hin | heq
          · rw [h0] at hin
            exact absurd hin (by decide)
          · rw [heq] at h0
            rw [h0] at hd
            exact absurd hd (by decide)
      · rw [if_neg hh] at hp
        by_cases hj12 : j = 12
        · subst hj12
          rw [show refPat.drop 12 = [] from rfl] at hp ⊢
          simp only [List.nil_append] at hp ⊢
          have hd0 : d = c := (List.cons_prefix_cons.mp hp).1
          rw [hd0]
          exact List.cons_prefix_cons.mpr ⟨rfl, List.nil_prefix⟩
        · have hjlt : j < 12 := lt_of_le_of_ne hj hj12
          have hdj : refPat.drop j = refPat[j] :: refPat.drop (j + 1) :=
            List.drop_eq_getElem_cons (by simp [refPat]; omega)
          rw [hdj, List.cons_append] at hp ⊢
          obtain ⟨h1, h2⟩ := List.cons_prefix_cons.mp hp
          have hrl : rest.length ≤ n := by
            simp only [List.length_cons] at hl
            omega
          exact List.cons_prefix_cons.mpr
            ⟨h1, ih rest hrl (j + 1) d (by omega) hd h2⟩

/-- After the rewrite, no occurrence of the reference pattern remains. -/
theorem hasRef_rsr : ∀ (n : Nat) (l : List Char), l.length ≤ n →
    hasRef (replace_superpowers_references l) = false := by
  intro n
  induction n with
  | zero =>
    intro l hl
    have hnil : l = [] := List.eq_nil_of_length_eq_zero (Nat.le_zero.mp hl)
    subst hnil
    rfl
  | succ n ih =>
    intro l hl
    cases l with
    | nil => rfl
    | cons c rest =>
      rw [rsr_cons]
      by_cases hh : refHit (c :: rest)
      · rw [if_pos hh]
        set t := ((c :: rest).drop 12).takeWhile isIdChar with ht
        have hshape : refRepl t ++ replace_superpowers_references
              (((c :: rest).drop 12).drop t.length) =
            (chars "切换到技能 " ++ t ++ chars ".md (使用 gskill " ++ t) ++
              ')' :: replace_superpowers_references
                (((c :: rest).drop 12).drop t.length) := by
          show (chars "切换到技能 " ++ t ++ chars ".md (使用 gskill " ++ t ++
            [')']) ++ _ = _
          simp [List.append_assoc]
        rw [hshape]
        apply hasRef_append_safe
        · intro hmem
          have hts : ∀ x ∈ t, isIdChar x = true := by
            intro x hx
            exact List.mem_takeWhile_imp (ht ▸ hx)
          rcases List.mem_append.mp hmem with hmem1 | hmem1
          · rcases List.mem_append.mp hmem1 with hmem2 | hmem2
            · rcases List.mem_append.mp hmem2 with hmem3 | hmem3
              · exact absurd hmem3 (by decide)
              · exact absurd (hts ':' hmem3) (by decide)
            · exact absurd hmem2 (by decide)
          · exact absurd (hts ':' hmem1) (by decide)
        · decide
        · apply ih
          simp only [List.length_drop, List.length_cons] at *
          omega
      · rw [if_neg hh]
        simp only [hasRef]
        have hrl : rest.length ≤ n := by
          simp only [List.length_cons] at hl
          omega
        rw [ih rest hrl]
        have h3 : refHit (c :: replace_superpowers_references rest) = false := by
          cases h4 : refHit (c :: replace_superpowers_references rest) with
          | false => rfl
          | true =>
            exfalso
            obtain ⟨d, hd, hp⟩ := (refHit_iff _).mp h4
            have hp' : (refPat.drop 0 ++ [d]) <+:
                replace_superpowers_references (c :: rest) := by
              rw [rsr_cons, if_neg hh]
              simpa using hp
            have htr := ref_prefix_transfer (n + 1) (c :: rest) hl 0 d
              (by omega) hd hp'
            apply hh
            apply (refHit_iff _).mpr
            exact ⟨d, hd, by simpa using htr⟩
        rw [h3]
        rfl

/-- On an occurrence at the front, the rewrite emits the instruction string
for the (greedily matched) identifier and continues after it. -/
theorem rsr_at_ref (idtok b : List Char) (h1 : idtok ≠ [])
    (h2 : idtok.all isIdChar = true)
    (h3 : b.head?.all (fun c => !isIdChar c) = true) :
    replace_superpowers_references (refPat ++ idtok ++ b) =
      refRepl idtok ++ replace_superpowers_references b := by
  obtain ⟨d, idt', rfl⟩ : ∃ d idt', idtok = d :: idt' := by
    cases idtok with
    | nil => exact absurd rfl h1
    | cons d idt' => exact ⟨d, idt', rfl⟩
  rw [List.all_cons, Bool.and_eq_true] at h2
  obtain ⟨hd, h2'⟩ := h2
  have hcons : refPat ++ (d :: idt') ++ b =
      's' :: (['u', 'p', 'e', 'r', 'p', 'o', 'w', 'e', 'r', 's', ':'] ++
        (d :: idt') ++ b) := rfl
  rw [hcons, rsr_cons, ← hcons]
  have hdrop : (refPat ++ (d :: idt') ++ b).drop 12 = (d :: idt') ++ b := by
    rw [List.append_assoc]
    exact List.drop_left' rfl
  have htake : ((d :: idt') ++ b).takeWhile isIdChar = d :: idt' := by
    rw [List.takeWhile_append_of_pos ?_]
    · cases b with
      | nil => simp
      | cons c b' =>
        simp only [Option.all, List.head?_cons] at h3
        rw [List.takeWhile_cons_of_neg (by simp [Bool.not_eq_true'] at h3 ⊢; exact h3)]
        simp
    · intro a ha
      rcases List.mem_cons.mp ha with h | h
      · exact h ▸ hd
      · exact (List.all_eq_true.mp h2') a h
  have hhit : refHit (refPat ++ (d :: idt') ++ b) = true := by
    apply (refHit_iff _).mpr
    refine ⟨d, hd, ?_⟩
    rw [List.append_assoc]
    have : refPat ++ [d] ++ (idt' ++ b) = refPat ++ (d :: idt' ++ b) := by simp
    rw [← this]
    exact List.prefix_append _ _
  rw [if_pos hhit, hdrop, htake]
  congr 1
  rw [show (d :: idt').length = (d :: idt').length from rfl]
  exact congrArg _ (List.drop_left _ _)

/-! ## Claim C4 (confirmed) -/

/-- C4: the reference-rewrite rule replaces every occurrence of the fixed
pattern (`'superpowers:'` followed by a non-empty run of `[a-zA-Z-]`
characters) with the instruction string naming that identifier (`refRepl`),
and zero occurrences of the pattern remain anywhere in the output. -/
theorem c4_reference_rewrite_total :
    (∀ l : List Char, hasRef (replace_superpowers_references l) = false) ∧
    (∀ idtok b : List Char, idtok ≠ [] → idtok.all isIdChar = true →
      b.head?.all (fun c => !isIdChar c) = true →
      replace_superpowers_references (refPat ++ idtok ++ b) =
        refRepl idtok ++ replace_superpowers_references b) :=
  ⟨fun l => hasRef_rsr l.length l (le_refl _), rsr_at_ref⟩

/-- Witness for `c4_reference_rewrite_total` at a concrete line. -/
theorem c4_reference_rewrite_total_w :
    hasRef (replace_superpowers_references
      (chars "see superpowers:test-skill now")) = false ∧
    replace_superpowers_references (refPat ++ chars "test-skill" ++ chars " now") =
      refRepl (chars "test-skill") ++ replace_superpowers_references (chars " now") :=
  ⟨c4_reference_rewrite_total.1 (chars "see superpowers:test-skill now"),
   c4_reference_rewrite_total.2 (chars "test-skill") (chars " now")
     (by decide) (by decide) (by decide)⟩

/-! ## Lemmas about the body-processing loop -/

/-- `processBody` distributes over list append. -/
theorem processBody_append (st : FenceState) (a b : List (List Char)) :
    processBody st (a ++ b) =
      ((processBody (processBody st a).1 b).1,
       (processBody st a).2 ++ (processBody (processBody st a).1 b).2) := by
  induction a generalizing st with
  | nil => simp [processBody]
  | cons l ls ih => simp [processBody, ih]

/-- Outside a fence, a fence-marker line opens a fence, captures the
language, and is emitted unchanged. -/
theorem processLine_open (st : FenceState) (line : List Char)
    (hst : st.inCB = false) (hf : fenceLine line = true) :
    processLine st line = (⟨true, extractLang line⟩, line) := by
  simp [processLine, is_code_block, hf, hst]

/-- Inside a fence, a fence-marker line closes the fence, clears the
language, and is emitted unchanged. -/
theorem processLine_close (st : FenceState) (line : List Char)
    (hst : st.inCB = true) (hf : fenceLine line = true) :
    processLine st line = (⟨false, []⟩, line) := by
  simp [processLine, is_code_block, hf, hst]

/-- Inside a fence, a non-marker line leaves the state unchanged and is
emitted verbatim — except that in a `markdown` fence the reference rewrite
(and only it) is applied. -/
theorem processLine_inside (st : FenceState) (line : List Char)
    (hst : st.inCB = true) (hf : fenceLine line = false) :
    processLine st line =
      (st, if st.lang = chars "markdown"
        then replace_superpowers_references line else line) := by
  obtain ⟨cb, lg⟩ := st
  have hcb : cb = true := hst
  subst hcb
  by_cases hl : lg = chars "markdown" <;>
    simp [processLine, is_code_block, hf, hl]

/-- A run of non-marker lines inside a fence keeps the state and emits each
line via the in-fence branch only. -/
theorem processBody_inside (st : FenceState) (ls : List (List Char))
    (hst : st.inCB = true) (hf : ∀ l ∈ ls, fenceLine l = false) :
    processBody st ls =
      (st, ls.map (fun l => if st.lang = chars "markdown"
        then replace_superpowers_references l else l)) := by
  induction ls with
  | nil => simp [processBody]
  | cons l ls ih =>
    have h1 := processLine_inside st l hst (hf l (List.mem_cons_self _ _))
    simp [processBody, h1, ih (fun x hx => hf x (List.mem_cons_of_mem _ hx))]

/-! ## Claim C5 (confirmed) -/

/-- C5: if the body reaches a fence-opener line outside any fence and no
later line is a fence marker (the fence is never closed), then every line
after the opener stays classified as inside the fence to the end of the
document (`inCB` remains `true`), and each of those lines is emitted through
the in-fence branch only — verbatim, or (in a `markdown` fence) with just
the reference rewrite — so no paragraph-translation insertion and no
heading annotation is ever applied to them. -/
theorem c5_unterminated_fence (pre post : List (List Char)) (opener : List Char)
    (h1 : (processBody initFence pre).1.inCB = false)
    (h2 : fenceLine opener = true)
    (h3 : ∀ l ∈ post, fenceLine l = false) :
    (processBody initFence (pre ++ opener :: post)).1.inCB = true ∧
    (processBody initFence (pre ++ opener :: post)).2 =
      (processBody initFence pre).2 ++ opener ::
        post.map (fun l => if extractLang opener = chars "markdown"
          then replace_superpowers_references l else l) := by
  rw [processBody_append]
  have hopen := processLine_open (processBody initFence pre).1 opener h1 h2
  simp only [processBody, hopen]
  have hin := processBody_inside ⟨true, extractLang opener⟩ post rfl h3
  rw [hin]
  exact ⟨rfl, rfl⟩

/-- Witness for `c5_unterminated_fence` at a concrete body. -/
theorem c5_unterminated_fence_w :
    (processBody initFence
      ([] ++ chars "```text" ::
        [chars "## Overview", chars "Do not skip any steps"])).1.inCB = true ∧
    (processBody initFence
      ([] ++ chars "```text" ::
        [chars "## Overview", chars "Do not skip any steps"])).2 =
      (processBody initFence []).2 ++ chars "```text" ::
        [chars "## Overview", chars "Do not skip any steps"].map
          (fun l => if extractLang (chars "```text") = chars "markdown"
            then replace_superpowers_references l else l) :=
  c5_unterminated_fence [] [chars "## Overview", chars "Do not skip any steps"]
    (chars "```text") (by decide) (by decide) (by decide)

/-! ## Claim C2 (confirmed) -/

/-- C2: every line strictly between an opening fence marker and the next
fence marker (the closer), when the fence's declared language is not the
documentation language `markdown`, appears in the output byte-for-byte
identical, in place. -/
theorem c2_fenced_lines_verbatim (pre mids post : List (List Char))
    (opener closer : List Char)
    (h1 : (processBody initFence pre).1.inCB = false)
    (h2 : fenceLine opener = true)
    (h3 : ∀ l ∈ mids, fenceLine l = false)
    (h4 : extractLang opener ≠ chars "markdown")
    (h5 : fenceLine closer = true) :
    (processBody initFence (pre ++ opener :: (mids ++ closer :: post))).2 =
      (processBody initFence pre).2 ++ opener :: (mids ++ closer ::
        (processBody initFence post).2) := by
  rw [processBody_append]
  have hopen := processLine_open (processBody initFence pre).1 opener h1 h2
  simp only [processBody, hopen]
  have hmids := processBody_inside ⟨true, extractLang opener⟩ mids rfl h3
  rw [processBody_append, hmids]
  have hclose := processLine_close ⟨true, extractLang opener⟩ closer rfl h5
  simp only [processBody, hclose]
  have hmap : mids.map (fun l =>
      if (⟨true, extractLang opener⟩ : FenceState).lang = chars "markdown"
        then replace_superpowers_references l else l) = mids := by
    have : ∀ l ∈ mids, (if (⟨true, extractLang opener⟩ : FenceState).lang =
        chars "markdown" then replace_superpowers_references l else l) = l := by
      intro l _
      simp [h4]
    rw [List.map_congr_left this]
    exact List.map_id mids
  rw [hmap]
  rfl

/-- Witness for `c2_fenced_lines_verbatim` at a concrete body. -/
theorem c2_fenced_lines_verbatim_w :
    (processBody initFence
      ([] ++ chars "```python" ::
        ([chars "Do not skip any steps", chars "see superpowers:foo"] ++
          chars "```" :: []))).2 =
      (processBody initFence []).2 ++ chars "```python" ::
        ([chars "Do not skip any steps", chars "see superpowers:foo"] ++
          chars "```" :: (processBody initFence []).2) :=
  c2_fenced_lines_verbatim [] [chars "Do not skip any steps",
      chars "see superpowers:foo"] [] (chars "```python") (chars "```")
    (by decide) (by decide) (by decide) (by decide) (by decide)

/-! ## Lemmas about the frontmatter parser -/

/-- A successful `findOcc` yields a decomposition of the haystack. -/
theorem findOcc_some_decomp (needle : List Char) : ∀ (hay : List Char) (i : Nat),
    findOcc needle hay = some i → ∃ b, hay = hay.take i ++ needle ++ b := by
  intro hay
  induction hay with
  | nil =>
    intro i h
    simp only [findOcc] at h
    split at h
    · injection h with h
      subst h
      rename_i hne
      refine ⟨[], ?_⟩
      rw [List.isEmpty_iff.mp hne]
      rfl
    · cases h
  | cons c rest ih =>
    intro i h
    simp only [findOcc] at h
    split at h
    · injection h with h
      subst h
      rename_i hp
      rw [ List.isPrefixOf_iff_prefix] at hp
      obtain ⟨b, hb⟩ := hp
      exact ⟨b, by simpa using hb.symm⟩
    · cases hfr : findOcc needle rest with
      | none => rw [hfr] at h; cases h
      | some j =>
        rw [hfr] at h
        simp only [Option.map_some'] at h
        injection h with h
        subst h
        obtain ⟨b, hb⟩ := ih j hfr
        refine ⟨b, ?_⟩
        rw [List.take_succ_cons, List.cons_append, List.cons_append]
        exact congrArg (c :: ·) hb

/-! ## Claim C8 (confirmed) -/

/-- C8: an input that does not decompose as a well-formed frontmatter block
(`---` marker line at the very start, then a region, then a closing `---`
marker line) is parsed to the empty metadata mapping with the entire
original input as the body.  `parse_skill_md` is a total function, so no
error can be raised. -/
theorem c8_no_frontmatter_passthrough (content : List Char)
    (h : ∀ fm body, content ≠ chars "---\n" ++ fm ++ delimPat ++ body) :
    parse_skill_md content = ([], content) := by
  unfold parse_skill_md
  by_cases hpre : (chars "---\n").isPrefixOf content
  · rw [if_pos hpre]
    cases hocc : findOcc delimPat (content.drop 4) with
    | none => rfl
    | some i =>
      exfalso
      obtain ⟨b, hb⟩ := findOcc_some_decomp delimPat _ i hocc
      rw [ List.isPrefixOf_iff_prefix] at hpre
      obtain ⟨rest4, hrest⟩ := hpre
      have hdrop : content.drop 4 = rest4 := by
        rw [← hrest]
        exact List.drop_left' rfl
      rw [hdrop] at hb
      refine h (rest4.take i) b ?_
      rw [← hrest]
      conv_lhs => rw [hb]
      simp [List.append_assoc]
  · rw [if_neg hpre]

/-- Witness for `c8_no_frontmatter_passthrough` at a concrete input. -/
theorem c8_no_frontmatter_passthrough_w :
    parse_skill_md (chars "No frontmatter here") =
      ([], chars "No frontmatter here") :=
  c8_no_frontmatter_passthrough (chars "No frontmatter here") (by
    intro fm body heq
    have hh := congrArg List.head? heq
    simp [chars] at hh)

/-! ## Claim C9 (confirmed) -/

/-- C9: when the source root matches zero skill documents (including when it
does not exist — `Path.glob` then yields nothing), the batch driver returns
normally with zero per-skill output files and a reported count of 0. -/
theorem c9_zero_input_zero_output : convert_all [] = ([], 0) := rfl

/-! ## Locating the closing delimiter of an assembled frontmatter block -/

/-- `findOcc` for the delimiter skips over a newline-free block. -/
theorem findOcc_skip (l r : List Char) (h : ∀ c ∈ l, c ≠ '\n') :
    findOcc delimPat (l ++ r) = (findOcc delimPat r).map (· + l.length) := by
  induction l with
  | nil =>
    rw [List.nil_append]
    cases findOcc delimPat r <;> simp
  | cons c l' ih =>
    have hc : c ≠ '\n' := h c (List.mem_cons_self _ _)
    have hnp : delimPat.isPrefixOf (c :: (l' ++ r)) = false := by
      show (('\n' : Char) :: ['-', '-', '-', '\n']).isPrefixOf (c :: (l' ++ r)) = false
      simp only [List.isPrefixOf, Bool.and_eq_false_iff]
      left
      exact beq_eq_false_iff_ne.mpr (fun hx => hc hx.symm)
    simp only [List.cons_append, findOcc, List.append_eq, hnp,
      Bool.false_eq_true, if_false]
    rw [ih (fun x hx => h x (List.mem_cons_of_mem _ hx))]
    cases findOcc delimPat r <;> simp
    omega

/-- `findOcc` fires immediately on the delimiter itself. -/
theorem findOcc_at_delim (r : List Char) :
    findOcc delimPat (delimPat ++ r) = some 0 := by
  have hp : delimPat.isPrefixOf (delimPat ++ r) = true := by
    rw [ List.isPrefixOf_iff_prefix]
    exact List.prefix_append _ _
  show findOcc delimPat ('\n' :: (['-', '-', '-', '\n'] ++ r)) = some 0
  simp only [findOcc]
  rw [if_pos]
  exact hp

/-- A line that contains a colon and no newline, followed by a newline,
cannot begin the tail `"---\n"` of the closing delimiter. -/
theorem delim_tail_not_pref (l2 w : List Char)
    (hc : ':' ∈ l2) (hn : ∀ c ∈ l2, c ≠ '\n') :
    (['-', '-', '-', '\n'] : List Char).isPrefixOf (l2 ++ '\n' :: w) = false := by
  cases l2 with
  | nil => cases hc
  | cons a l3 =>
    cases l3 with
    | nil => simp [List.isPrefixOf]
    | cons b l4 =>
      cases l4 with
      | nil => simp [List.isPrefixOf]
      | cons c3 l5 =>
        cases l5 with
        | nil =>
          rcases List.mem_cons.mp hc with h1 | h1
          · rw [← h1]
            simp [List.isPrefixOf]
          rcases List.mem_cons.mp h1 with h2 | h2
          · rw [← h2]
            simp [List.isPrefixOf]
          rcases List.mem_cons.mp h2 with h3 | h3
          · rw [← h3]
            simp [List.isPrefixOf]
          · cases h3
        | cons d l6 =>
          have hd : d ≠ '\n' := hn d (by simp)
          simp [List.isPrefixOf, beq_eq_false_iff_ne.mpr (fun hx => hd hx.symm)]

/-- In an assembled frontmatter block whose lines all contain a colon and no
newline, the first occurrence of `"\n---\n"` is exactly the closing
delimiter. -/
theorem findOcc_fm (lines : List (List Char)) (z : List Char)
    (hne : lines ≠ [])
    (hl : ∀ l ∈ lines, ':' ∈ l ∧ ∀ c ∈ l, c ≠ '\n') :
    findOcc delimPat (joinNl lines ++ (delimPat ++ z)) =
      some (joinNl lines).length := by
  induction lines with
  | nil => exact absurd rfl hne
  | cons l ls ih =>
    cases ls with
    | nil =>
      show findOcc delimPat (l ++ (delimPat ++ z)) = some l.length
      rw [findOcc_skip l _ (hl l (List.mem_cons_self _ _)).2, findOcc_at_delim]
      simp
    | cons l2 ls2 =>
      show findOcc delimPat
        ((l ++ '\n' :: joinNl (l2 :: ls2)) ++ (delimPat ++ z)) =
        some (l ++ '\n' :: joinNl (l2 :: ls2)).length
      rw [List.append_assoc, List.cons_append]
      rw [findOcc_skip l _ (hl l (List.mem_cons_self _ _)).2]
      have hnp : delimPat.isPrefixOf
          ('\n' :: (joinNl (l2 :: ls2) ++ (delimPat ++ z))) = false := by
        show (('\n' : Char) :: ['-', '-', '-', '\n']).isPrefixOf _ = false
        simp only [List.isPrefixOf, beq_self_eq_true, Bool.true_and]
        have hsplit : ∃ w, joinNl (l2 :: ls2) ++ (delimPat ++ z) =
            l2 ++ '\n' :: w := by
          cases ls2 with
          | nil => exact ⟨['-', '-', '-', '\n'] ++ z, by simp [joinNl, delimPat]⟩
          | cons l3 ls3 =>
            refine ⟨joinNl (l3 :: ls3) ++ (delimPat ++ z), ?_⟩
            show (l2 ++ '\n' :: joinNl (l3 :: ls3)) ++ (delimPat ++ z) = _
            simp [List.append_assoc]
        obtain ⟨w, hw⟩ := hsplit
        rw [hw]
        exact delim_tail_not_pref l2 w
          (hl l2 (List.mem_cons_of_mem _ (List.mem_cons_self _ _))).1
          (hl l2 (List.mem_cons_of_mem _ (List.mem_cons_self _ _))).2
      simp only [findOcc, hnp, Bool.false_eq_true, if_false]
      rw [ih (by simp) (fun x hx => hl x (List.mem_cons_of_mem _ hx))]
      simp only [Option.map_some', Option.some.injEq]
      simp [joinNl]
      omega

/-! ## Splitting the frontmatter back into its lines -/

/-- A newline-free list splits into itself. -/
theorem splitOnNl_nonl (l : List Char) (h : ∀ c ∈ l, c ≠ '\n') :
    splitOnNl l = [l] := by
  induction l with
  | nil => rfl
  | cons c rest ih =>
    have hc : c ≠ '\n' := h c (List.mem_cons_self _ _)
    simp only [splitOnNl, if_neg hc]
    rw [ih (fun x hx => h x (List.mem_cons_of_mem _ hx))]

/-- Splitting after a newline-free first segment. -/
theorem splitOnNl_append_nl (l z : List Char) (h : ∀ c ∈ l, c ≠ '\n') :
    splitOnNl (l ++ '\n' :: z) = l :: splitOnNl z := by
  induction l with
  | nil => simp [splitOnNl]
  | cons c l' ih =>
    have hc : c ≠ '\n' := h c (List.mem_cons_self _ _)
    simp only [List.cons_append, splitOnNl, if_neg hc, List.append_eq]
    rw [ih (fun x hx => h x (List.mem_cons_of_mem _ hx))]

/-- `splitOnNl` inverts `joinNl` on non-empty lists of newline-free lines
(the model of Python's `'\n'.join` / `split('\n')` round trip). -/
theorem splitOnNl_join (lines : List (List Char)) (hne : lines ≠ [])
    (h : ∀ l ∈ lines, ∀ c ∈ l, c ≠ '\n') :
    splitOnNl (joinNl lines) = lines := by
  induction lines with
  | nil => exact absurd rfl hne
  | cons l ls ih =>
    cases ls with
    | nil => exact splitOnNl_nonl l (h l (List.mem_cons_self _ _))
    | cons l2 ls2 =>
      show splitOnNl (l ++ '\n' :: joinNl (l2 :: ls2)) = l :: l2 :: ls2
      rw [splitOnNl_append_nl l _ (h l (List.mem_cons_self _ _))]
      rw [ih (by simp) (fun x hx => h x (List.mem_cons_of_mem _ hx))]

/-! ## The frontmatter key-value loop -/

/-- Inserting a fresh key appends. -/
theorem insertKV_not_mem (m : List (List Char × List Char)) (k v : List Char)
    (h : ∀ p ∈ m, p.1 ≠ k) : insertKV m k v = m ++ [(k, v)] := by
  induction m with
  | nil => rfl
  | cons p rest ih =>
    simp only [insertKV, if_neg (h p (List.mem_cons_self _ _))]
    rw [ih (fun q hq => h q (List.mem_cons_of_mem _ hq))]
    rfl

/-- Stripping starts after a leading space. -/
theorem pyStrip_cons_space (v : List Char) : pyStrip (' ' :: v) = pyStrip v := by
  unfold pyStrip
  rw [List.dropWhile_cons, if_pos (by decide : isPySpace ' ' = true)]

/-- One frontmatter line `"<key>: <value>"` with a colon-free key updates
the mapping at the trimmed key with the trimmed value. -/
theorem parseFMLine_kv (m : List (List Char × List Char)) (k v : List Char)
    (hk : ':' ∉ k) :
    parseFMLine m (k ++ ':' :: ' ' :: v) = insertKV m (pyStrip k) (pyStrip v) := by
  unfold parseFMLine
  have hmem : ':' ∈ k ++ ':' :: ' ' :: v :=
    List.mem_append_right _ (List.mem_cons_self _ _)
  rw [if_pos hmem]
  have hka : ∀ c ∈ k, (!(c == ':')) = true := by
    intro c hc
    simp only [Bool.not_eq_true', beq_eq_false_iff_ne]
    exact fun hx => hk (hx ▸ hc)
  have h1 : (k ++ ':' :: ' ' :: v).takeWhile (fun c => !(c == ':')) = k := by
    rw [List.takeWhile_append_of_pos hka, List.takeWhile_cons_of_neg (by simp)]
    simp
  have h2 : (k ++ ':' :: ' ' :: v).dropWhile (fun c => !(c == ':')) =
      ':' :: ' ' :: v := by
    rw [List.dropWhile_append_of_pos hka, List.dropWhile_cons]
    simp
  rw [h1, h2]
  simp only [List.tail_cons]
  rw [pyStrip_cons_space]

/-- The whole frontmatter loop over assembled `"<key>: <value>"` lines
accumulates exactly the trimmed pairs, provided the trimmed keys are fresh. -/
theorem foldl_parseFMLine (kvs : List (List Char × List Char)) :
    ∀ acc : List (List Char × List Char),
    (∀ p ∈ kvs, ':' ∉ p.1) →
    (acc.map Prod.fst ++ kvs.map (fun p => pyStrip p.1)).Nodup →
    (kvs.map (fun p => p.1 ++ ':' :: ' ' :: p.2)).foldl parseFMLine acc =
      acc ++ kvs.map (fun p => (pyStrip p.1, pyStrip p.2)) := by
  induction kvs with
  | nil => intro acc _ _; simp
  | cons p rest ih =>
    intro acc hcol hnodup
    simp only [List.map_cons, List.foldl_cons]
    rw [parseFMLine_kv acc p.1 p.2 (hcol p (List.mem_cons_self _ _))]
    have hfresh : ∀ q ∈ acc, q.1 ≠ pyStrip p.1 := by
      intro q hq hx
      have hmid : (pyStrip p.1 ::
          (acc.map Prod.fst ++ rest.map (fun r => pyStrip r.1))).Nodup := by
        rw [← List.nodup_middle]
        simpa using hnodup
      have hnotmem := (List.nodup_cons.mp hmid).1
      exact hnotmem (List.mem_append_left _ (hx ▸ List.mem_map_of_mem Prod.fst hq))
    rw [insertKV_not_mem acc (pyStrip p.1) (pyStrip p.2) hfresh]
    rw [ih (acc ++ [(pyStrip p.1, pyStrip p.2)])
      (fun q hq => hcol q (List.mem_cons_of_mem _ hq)) ?_]
    · simp
    · simpa using hnodup

/-- Characters of an assembled `"<key>: <value>"` line: the line contains a
colon and, for newline-free keys and values, no newline. -/
theorem kv_line_chars (kvs : List (List Char × List Char))
    (hwf : ∀ p ∈ kvs, ':' ∉ p.1 ∧ '\n' ∉ p.1 ∧ '\n' ∉ p.2) :
    ∀ l ∈ kvs.map (fun p => p.1 ++ ':' :: ' ' :: p.2),
      ':' ∈ l ∧ ∀ c ∈ l, c ≠ '\n' := by
  intro l hl
  obtain ⟨p, hp, rfl⟩ := List.mem_map.mp hl
  obtain ⟨-, hnl1, hnl2⟩ := hwf p hp
  refine ⟨List.mem_append_right _ (List.mem_cons_self _ _), ?_⟩
  intro c hc heq
  subst heq
  rcases List.mem_append.mp hc with h1 | h1
  · exact hnl1 h1
  · rcases List.mem_cons.mp h1 with h2 | h2
    · cases h2
    · rcases List.mem_cons.mp h2 with h3 | h3
      · cases h3
      · exact hnl2 h3

/-- The frontmatter loop recovers exactly the trimmed key-value pairs from
an assembled frontmatter region. -/
theorem parseFrontmatter_fm (kvs : List (List Char × List Char))
    (hne : kvs ≠ [])
    (hwf : ∀ p ∈ kvs, ':' ∉ p.1 ∧ '\n' ∉ p.1 ∧ '\n' ∉ p.2)
    (hnodup : (kvs.map (fun p => pyStrip p.1)).Nodup) :
    parseFrontmatter (fmOf kvs) =
      kvs.map (fun p => (pyStrip p.1, pyStrip p.2)) := by
  unfold parseFrontmatter fmOf
  rw [splitOnNl_join _ (by simpa using hne)
    (fun l hl => (kv_line_chars kvs hwf l hl).2)]
  have h := foldl_parseFMLine kvs [] (fun p hp => (hwf p hp).1)
    (by simpa using hnodup)
  simpa using h

/-! ## Claim C3 (confirmed) -/

/-- C3: a document assembled as the line `---`, a non-empty sequence of
`"<key>: <value>"` lines (keys colon-free, keys and values newline-free,
trimmed keys distinct), the line `---`, then a body string, parses to
exactly the mapping of each trimmed key to its trimmed value, with the body
returned unchanged (the closing delimiter's trailing newline having been
consumed by the delimiter match). -/
theorem c3_frontmatter_roundtrip (kvs : List (List Char × List Char))
    (body : List Char) (hne : kvs ≠ [])
    (hwf : ∀ p ∈ kvs, ':' ∉ p.1 ∧ '\n' ∉ p.1 ∧ '\n' ∉ p.2)
    (hnodup : (kvs.map (fun p => pyStrip p.1)).Nodup) :
    parse_skill_md (mkDoc kvs body) =
      (kvs.map (fun p => (pyStrip p.1, pyStrip p.2)), body) := by
  have hassoc : mkDoc kvs body =
      chars "---\n" ++ (fmOf kvs ++ (delimPat ++ body)) := by
    unfold mkDoc
    simp [List.append_assoc]
  unfold parse_skill_md
  rw [hassoc]
  have hpre : (chars "---\n").isPrefixOf
      (chars "---\n" ++ (fmOf kvs ++ (delimPat ++ body))) = true := by
    rw [ List.isPrefixOf_iff_prefix]
    exact List.prefix_append _ _
  rw [if_pos hpre]
  have hdrop4 : (chars "---\n" ++ (fmOf kvs ++ (delimPat ++ body))).drop 4 =
      fmOf kvs ++ (delimPat ++ body) := List.drop_left' rfl
  rw [hdrop4]
  have hocc : findOcc delimPat (fmOf kvs ++ (delimPat ++ body)) =
      some (fmOf kvs).length := by
    show findOcc delimPat
        (joinNl (kvs.map (fun p => p.1 ++ ':' :: ' ' :: p.2)) ++
          (delimPat ++ body)) =
      some (joinNl (kvs.map (fun p => p.1 ++ ':' :: ' ' :: p.2))).length
    exact findOcc_fm _ body (by simpa using hne) (kv_line_chars kvs hwf)
  rw [hocc]
  have htake : (fmOf kvs ++ (delimPat ++ body)).take (fmOf kvs).length =
      fmOf kvs := List.take_left _ _
  have hdropb : (fmOf kvs ++ (delimPat ++ body)).drop
      ((fmOf kvs).length + 5) = body := by
    rw [← List.append_assoc]
    exact List.drop_left' (by simp [delimPat])
  show (parseFrontmatter
      ((fmOf kvs ++ (delimPat ++ body)).take (fmOf kvs).length),
    (fmOf kvs ++ (delimPat ++ body)).drop ((fmOf kvs).length + 5)) =
    (kvs.map (fun p => (pyStrip p.1, pyStrip p.2)), body)
  rw [htake, hdropb,
    parseFrontmatter_fm kvs hne hwf hnodup]

/-- Witness for `c3_frontmatter_roundtrip` at a concrete document. -/
theorem c3_frontmatter_roundtrip_w :
    parse_skill_md (mkDoc
        [(chars "name", chars "test-skill"),
         (chars "description", chars "A sample.")] (chars "Body text")) =
      ([(chars "name", chars "test-skill"),
        (chars "description", chars "A sample.")].map
          (fun p => (pyStrip p.1, pyStrip p.2)), chars "Body text") :=
  c3_frontmatter_roundtrip
    [(chars "name", chars "test-skill"),
     (chars "description", chars "A sample.")] (chars "Body text")
    (by decide) (by decide) (by decide)
